import Mathlib

/-!
# Verification of the LocalMD live Markdown decoration engine

Shallow embedding of the decoration engine of this repository:
the style toggle command (`toggleStyle`), the decoration deduplicator
(`deduplicateDecorations`), the fenced-code and front-matter branches of
`getDecorations`, the blockquote, heading, inline-emphasis and underline
classifiers, and the table editor widget (`TableWidget.parseTable`,
`TableWidget.generateTable` and its `save` handler), together with
theorems settling the frozen claims about them.

Strings of the source are embedded as `List Char`; the JavaScript string
operations used by the engine (`slice`, `split`, `join`, `trim`,
`startsWith`, `endsWith`, `indexOf`, `lastIndexOf`) are modelled by
executable functions with the same semantics, including the clamping of
out-of-range indices. The host editor's document is embedded as its list
of lines, with the offset arithmetic of `doc.lineAt` / `doc.line` made
explicit.
-/

namespace LocalMD

/-! ## JS string primitives on `List Char` -/

/-- Whitespace test used by the model of `String.prototype.trim`. -/
def isWs (c : Char) : Bool := c.isWhitespace

/-- Leading-whitespace strip. -/
def trimL (l : List Char) : List Char := l.dropWhile isWs

/-- Trailing-whitespace strip. -/
def trimR (l : List Char) : List Char := (l.reverse.dropWhile isWs).reverse

/-- Model of JS `String.prototype.trim`. -/
def trim (l : List Char) : List Char := trimR (trimL l)

/-- Model of JS `String.prototype.split` with a one-character separator
(`"".split(sep)` is `[""]`; the result is never empty). -/
def splitCh (sep : Char) : List Char → List (List Char)
  | [] => [[]]
  | c :: rest =>
    let r := splitCh sep rest
    if c = sep then [] :: r else (c :: r.headI) :: r.tail

/-- Model of JS `Array.prototype.join` with a string separator. -/
def joinSep (sep : List Char) : List (List Char) → List Char
  | [] => []
  | x :: xs =>
    match xs with
    | [] => x
    | _ :: _ => x ++ sep ++ joinSep sep xs

/-- Model of `state.sliceDoc(a, b)`: the slice of the document between
offsets `a` and `b`, clamped to the document bounds (a negative start
offset clamps to `0`, which is what natural subtraction produces at the
call sites). -/
def sliceDoc (doc : List Char) (a b : Nat) : List Char :=
  (doc.take b).drop a

/-- Model of JS `text.startsWith(p)`. -/
def jsStartsWith (l p : List Char) : Prop := l.take p.length = p

/-- Model of JS `text.endsWith(p)`. -/
def jsEndsWith (l p : List Char) : Prop := l.drop (l.length - p.length) = p

instance (l p : List Char) : Decidable (jsStartsWith l p) := by
  unfold jsStartsWith; infer_instance

instance (l p : List Char) : Decidable (jsEndsWith l p) := by
  unfold jsEndsWith; infer_instance

/-- Lower-casing, for the case-insensitive `<u>` tag matching. -/
def toLowerL (l : List Char) : List Char := l.map Char.toLower

/-- Model of JS `String.prototype.indexOf` for a pattern string. -/
def findSubIdx (pat : List Char) : List Char → Option Nat
  | [] => if pat = [] then some 0 else none
  | c :: rest =>
    if List.isPrefixOf pat (c :: rest) then some 0
    else (findSubIdx pat rest).map (· + 1)

/-- Model of JS `String.prototype.lastIndexOf` for a pattern string. -/
def findSubLastIdx (pat l : List Char) : Option Nat :=
  ((List.range (l.length + 1)).filter
    (fun i => List.isPrefixOf pat (l.drop i))).getLast?

/-! ## Style Toggle Command (`toggleStyle`) -/

/-- The change and resulting selection computed by `toggleStyle` for one
selection range: a document edit `[chFrom, chTo) → insert` plus the new
selection `[selFrom, selTo]`. -/
structure ToggleChange where
  chFrom : Nat
  chTo : Nat
  insert : List Char
  selFrom : Nat
  selTo : Nat
deriving DecidableEq, Repr

/-- One selection range of `toggleStyle` (the body of
`selection.ranges.map`). `endSymbol || symbol` makes the effective end
symbol default to `symbol` when `endSymbol` is absent or empty (empty
strings are falsy in JS).

Case 1 (selection already wrapped) computes
`text.slice(symbol.length, -endSym.length)`; per JS
`String.prototype.slice` a second argument of `-0` is `0`, so an empty end
symbol yields the empty string. -/
def toggleStyleRange (doc : List Char) (rFrom rTo : Nat)
    (symbol : List Char) (endSymbol : Option (List Char)) : ToggleChange :=
  let endSym := match endSymbol with
    | some e => if e = [] then symbol else e
    | none => symbol
  let text := sliceDoc doc rFrom rTo
  if jsStartsWith text symbol ∧ jsEndsWith text endSym ∧
      symbol.length + endSym.length ≤ text.length then
    let innerText :=
      if endSym.length = 0 then []
      else (text.take (text.length - endSym.length)).drop symbol.length
    ⟨rFrom, rTo, innerText, rFrom, rFrom + innerText.length⟩
  else if sliceDoc doc (rFrom - symbol.length) rFrom = symbol ∧
      sliceDoc doc rTo (rTo + endSym.length) = endSym then
    ⟨rFrom - symbol.length, rTo + endSym.length, text,
      rFrom - symbol.length, rTo - symbol.length⟩
  else
    ⟨rFrom, rTo, symbol ++ text ++ endSym,
      rFrom + symbol.length, rTo + symbol.length⟩

/-- Application of a single change to the document
(`view.dispatch({changes: …})` for one range). -/
def applyChange (doc : List Char) (ch : ToggleChange) : List Char :=
  doc.take ch.chFrom ++ ch.insert ++ doc.drop ch.chTo

/-- String-level `wrap(T, s, e)`: what case 3 of the toggle inserts. -/
def wrapText (T s e : List Char) : List Char := s ++ T ++ e

/-! ## Range Deduplicator (`deduplicateDecorations`) -/

/-- A decoration object. `id` models JS object identity: two decoration
objects created separately carry different `id` even when `kind` and
`payload` (the rendering content) coincide. JS `!==` on objects is
identity, i.e. inequality of `id`. -/
structure DecoObj where
  id : Nat
  kind : String
  payload : String
deriving DecidableEq, Repr

/-- A positioned decoration (`Range<Decoration>`). -/
structure DecoRange where
  rFrom : Int
  rTo : Int
  value : DecoObj
deriving DecidableEq, Repr

/-- Order of the sort comparator `(a, b) => a.from - b.from || a.to - b.to`. -/
def decoLE (a b : DecoRange) : Prop :=
  a.rFrom < b.rFrom ∨ (a.rFrom = b.rFrom ∧ a.rTo ≤ b.rTo)

instance : DecidableRel decoLE := fun a b => by
  unfold decoLE; infer_instance

instance : IsTotal DecoRange decoLE :=
  ⟨fun a b => by unfold decoLE; omega⟩

instance : IsTrans DecoRange decoLE :=
  ⟨fun a b c hab hbc => by unfold decoLE at *; omega⟩

/-- The call `decorations.sort(…)`: JS `Array.prototype.sort` is a stable
sort by the comparator's total preorder, modelled by insertion sort. -/
def sortDecos (l : List DecoRange) : List DecoRange :=
  List.insertionSort decoLE l

/-- The filtering loop of `deduplicateDecorations`: keeps a decoration
unless it has the same `from`, `to` and (identically) the same `value`
object as the last kept one. The accumulator mirrors the mutable
`lastFrom = -1`, `lastTo = -1`, `lastValue = null`. -/
def dedupGo (lastFrom lastTo : Int) (lastValue : Option DecoObj) :
    List DecoRange → List DecoRange
  | [] => []
  | d :: rest =>
    if d.rFrom ≠ lastFrom ∨ d.rTo ≠ lastTo ∨ some d.value ≠ lastValue then
      d :: dedupGo d.rFrom d.rTo (some d.value) rest
    else
      dedupGo lastFrom lastTo lastValue rest

/-- The function `deduplicateDecorations`: inputs of length at most one are
returned unchanged; otherwise sort and drop adjacent repeats. -/
def deduplicateDecorations (decorations : List DecoRange) : List DecoRange :=
  if decorations.length ≤ 1 then decorations
  else dedupGo (-1) (-1) none (sortDecos decorations)

/-- Structural identity of the claim: equality of
`(from, to, kind, payload)`, ignoring object identity. -/
def structIdent (a b : DecoRange) : Prop :=
  a.rFrom = b.rFrom ∧ a.rTo = b.rTo ∧ a.value.kind = b.value.kind ∧
    a.value.payload = b.value.payload

instance : DecidableRel structIdent := fun a b => by
  unfold structIdent; infer_instance

/-- The adjacency relation guaranteed by the filtering loop: consecutive
output entries never agree on `from`, `to` and the `value` object. -/
def notAdjDup (a b : DecoRange) : Prop :=
  ¬(b.rFrom = a.rFrom ∧ b.rTo = a.rTo ∧ b.value = a.value)

/-! ## Table editor widget (`TableWidget`) -/

/-- A parsed table: rows of cells (`string[][]`). -/
abbrev TableGrid := List (List (List Char))

/-- How one cell appears inside a generated table line: `" c "`. -/
def padCell (c : List Char) : List Char := ' ' :: (c ++ [' '])

/-- One line of `TableWidget.generateTable`: the template
`| ${row.join(' | ')} |`. -/
def mkTableLine (row : List (List Char)) : List Char :=
  '|' :: ' ' :: (joinSep [' ', '|', ' '] row ++ [' ', '|'])

/-- The method `TableWidget.generateTable`: a markdown table string from
the 2-D array (no alignment padding). -/
def generateTable (data : TableGrid) : List Char :=
  joinSep ['\n'] (data.map mkTableLine)

/-- One line of `TableWidget.parseTable`: split on `|`, trim each cell,
drop a leading and a trailing empty cell if present. -/
def parseTableLine (line : List Char) : List (List Char) :=
  let row := (splitCh '|' line).map trim
  let row2 := if row.head? = some [] then row.tail else row
  if row2.getLast? = some [] then row2.dropLast else row2

/-- The method `TableWidget.parseTable`: split into lines, drop lines that
are blank after trimming, parse each remaining line. -/
def parseTable (raw : List Char) : TableGrid :=
  ((splitCh '\n' raw).filter (fun line => !(trim line).isEmpty)).map parseTableLine

/-- A value fit for a table cell: already trimmed, no `|`, no newline.
Cells produced by `parseTable` always satisfy this. -/
def cleanCell (c : List Char) : Prop := trim c = c ∧ '|' ∉ c ∧ '\n' ∉ c

instance (c : List Char) : Decidable (cleanCell c) := by
  unfold cleanCell; infer_instance

/-- The assignment `this.tableData[rowIndex][colIndex] = newValue`
(in-bounds; out of bounds leaves the grid unchanged, which cannot occur
for indices produced by iterating the grid). -/
def updateCell (g : TableGrid) (r c : Nat) (v : List Char) : TableGrid :=
  match g.get? r with
  | some row => g.set r (row.set c v)
  | none => g

/-- A document edit dispatched by a widget: `{from, to, insert}`. -/
structure EditChange where
  eFrom : Nat
  eTo : Nat
  insert : List Char
deriving DecidableEq, Repr

/-- The `save` closure of the table cell editor: when the input value
changed, regenerate the whole table from the updated grid and dispatch a
single replacement of the widget's original raw-text span
`[startPos, startPos + rawTable.length)`. -/
def tableWidgetSave (rawTable : List Char) (startPos : Nat)
    (tableData : TableGrid) (r c : Nat) (newValue : List Char) :
    Option EditChange :=
  let cellData := ((tableData.get? r).getD []).get? c |>.getD []
  if newValue ≠ cellData then
    some ⟨startPos, startPos + rawTable.length,
      generateTable (updateCell tableData r c newValue)⟩
  else none

/-- Sample table of Scenario E of the spec. -/
def rawTableEx : List Char := "| a | b |\n| - | - |\n| 1 | 2 |".toList

/-- A table span containing a blank line. -/
def rawTableBlank : List Char := "| a |\n\n| 1 |".toList

/-! ## The document as its list of lines (the host editor's `Text`) -/

/-- A document, as its list of lines (no trailing newline on the last). -/
abbrev Doc := List (List Char)

/-- Total number of characters of the document, counting one newline
between consecutive lines (`doc.length`). -/
def docLength : Doc → Nat
  | [] => 0
  | l :: rest => if rest.isEmpty then l.length else l.length + 1 + docLength rest

/-- Worker for `doc.lineAt`: the first line whose end offset is reached is
the line containing the position; positions past the end belong to the
last line. -/
def lineAtNumAux (n : Nat) : Doc → Nat → Nat
  | [], _ => n
  | l :: rest, pos =>
    if rest.isEmpty then n
    else if pos ≤ l.length then n
    else lineAtNumAux (n + 1) rest (pos - (l.length + 1))

/-- Model of `doc.lineAt(pos).number` (1-based). -/
def lineAtNum (doc : Doc) (pos : Nat) : Nat := lineAtNumAux 1 doc pos

/-- Model of `doc.line(n).text`. -/
def lineText (doc : Doc) (n : Nat) : List Char := (doc.get? (n - 1)).getD []

/-- Model of `doc.line(n).from`: offset of the start of line `n`. -/
def lineFrom (doc : Doc) (n : Nat) : Nat :=
  ((doc.take (n - 1)).map (fun l => l.length + 1)).sum

/-! ## Fenced code and front matter (`getDecorations`) -/

/-- The closing-fence test of the `FencedCode` branch:
`endLineText.startsWith('```') || endLineText.startsWith('~~~')` applied
to the trimmed text of the node's end line. -/
def isFenceLine (t : List Char) : Prop :=
  jsStartsWith (trim t) "```".toList ∨ jsStartsWith (trim t) "~~~".toList

instance (t : List Char) : Decidable (isFenceLine t) := by
  unfold isFenceLine; infer_instance

/-- Line numbers decorated by the `FencedCode` branch of `getDecorations`
for one node and one visible range `[vFrom, vTo]`: lines from the line
after the opening fence through the end line (stepping back over a closing
fence line), clamped to the visible lines, skipping numbers past the
document (`if (i > doc.lines) continue`). -/
def fencedCodeLines (doc : Doc) (nodeFrom nodeTo vFrom vTo : Nat) : List Nat :=
  let startLineNumber := lineAtNum doc nodeFrom + 1
  let endLine := lineAtNum doc nodeTo
  let endLineNumber := if isFenceLine (lineText doc endLine) then endLine - 1 else endLine
  let visibleStart := lineAtNum doc vFrom
  let visibleEnd := lineAtNum doc vTo
  let effectiveStart := max startLineNumber visibleStart
  let effectiveEnd := min endLineNumber visibleEnd
  (List.range' effectiveStart (effectiveEnd + 1 - effectiveStart)).filter
    (fun i => decide (i ≤ doc.length))

/-- The scan `for (let i = 2; i <= maxLines; i++)`, fuel-counted:
`fmScanAux doc i fuel` visits lines `i, i+1, …, i+fuel-1` and returns the
first whose trimmed text is `---`. -/
def fmScanAux (doc : Doc) : Nat → Nat → Option Nat
  | _, 0 => none
  | i, fuel + 1 =>
    if trim (lineText doc i) = "---".toList then some i
    else fmScanAux doc (i + 1) fuel

/-- Line numbers decorated by the front-matter branch of `getDecorations`:
the first line must trim to `---`; lines `2 … min(doc.lines, 100)` are
scanned for a closing `---`; the lines strictly between are styled.
This branch is independent of the viewport. -/
def frontMatterLines (doc : Doc) : List Nat :=
  if 0 < doc.length ∧ trim (lineText doc 1) = "---".toList then
    match fmScanAux doc 2 (min doc.length 100 - 1) with
    | some e => List.range' 2 (e - 2)
    | none => []
  else []

/-- Line numbers decorated by `getBlockquoteDecorations` for one
`Blockquote` node and one visible range: the node's lines clamped to the
visible lines. -/
def blockquoteLines (doc : Doc) (nodeFrom nodeTo vFrom vTo : Nat) : List Nat :=
  let startN := lineAtNum doc nodeFrom
  let endN := lineAtNum doc nodeTo
  let visibleStart := lineAtNum doc vFrom
  let visibleEnd := lineAtNum doc vTo
  let effectiveStart := max startN visibleStart
  let effectiveEnd := min endN visibleEnd
  List.range' effectiveStart (effectiveEnd + 1 - effectiveStart)

/-- Offsets (line starts) decorated by `getDecorations`: the `FencedCode`
branch runs per visible range over the nodes intersecting it
(`tree.iterate({from, to, …})`); the front-matter branch runs once,
independent of the viewport. -/
def getDecorations (doc : Doc) (fencedNodes : List (Nat × Nat))
    (visibleRanges : List (Nat × Nat)) : List Nat :=
  (visibleRanges.map (fun fr =>
    ((fencedNodes.filter (fun nd => decide (fr.1 ≤ nd.2 ∧ nd.1 ≤ fr.2))).map
      (fun nd => (fencedCodeLines doc nd.1 nd.2 fr.1 fr.2).map
        (lineFrom doc))).flatten)).flatten
  ++ (frontMatterLines doc).map (lineFrom doc)

/-- Sample document of Scenario B of the spec. -/
def docFence : Doc := ["```".toList, "code".toList, "```".toList]

/-- A five-line document whose first three lines are a front-matter block. -/
def docFM : Doc :=
  ["---".toList, "a".toList, "---".toList, "x".toList, "y".toList]

/-! ## Heading classifier (`getHeaderDecorations`) -/

/-- Model of JS `parseInt(name.slice(-1))`: value of the last character
when it is a decimal digit, otherwise `NaN` (modelled as `none`). -/
def parseIntLastChar (name : String) : Option Nat :=
  match name.toList.getLast? with
  | some c => if c.isDigit then some (c.toNat - '0'.toNat) else none
  | none => none

/-- The level guard of `getHeaderDecorations`:
`if (isNaN(level) || level < 1 || level > 6) return`. -/
def levelOfName (name : String) : Option Nat :=
  match parseIntLastChar name with
  | some level => if 1 ≤ level ∧ level ≤ 6 then some level else none
  | none => none

/-- Count of leading `#` characters of a line. -/
def countLeadingHashes : List Char → Nat
  | [] => 0
  | c :: rest => if c = '#' then countLeadingHashes rest + 1 else 0

/-- Modelled from the spec: the external Markdown parser (a black-box
collaborator, not part of this repository's sources) produces an
`ATXHeading{k}` node for a line with `k` leading `#` characters followed
by a space or the end of the line, only for `1 ≤ k ≤ 6`; seven or more
`#` characters are not a heading and yield no node. -/
def atxNodeName (line : List Char) : Option String :=
  let k := countLeadingHashes line
  if 1 ≤ k ∧ k ≤ 6 ∧ (line.get? k = none ∨ line.get? k = some ' ') then
    some ("ATXHeading" ++ toString k)
  else none

/-- The heading-level line decoration emitted for a line: the parser's
node name filtered through the classifier's level guard. -/
def headingLevelEmitted (line : List Char) : Option Nat :=
  (atxNodeName line).bind levelOfName

/-! ## Cursor proximity: heading marks, inline emphasis, underline tags -/

/-- An emitted decoration: a CSS-class payload over a span (for line
decorations the span is the line-start offset twice). -/
structure Deco where
  cls : String
  dFrom : Nat
  dTo : Nat
deriving DecidableEq, Repr

/-- The test `state.doc.sliceString(pos, pos + 1) === ' '` as a character
lookup in the joined document text. -/
def docCharAt (doc : Doc) (pos : Nat) : Option Char :=
  (joinSep ['\n'] doc).get? pos

/-- The `ATXHeading` branch of `getHeaderDecorations`: the heading line
style, plus for every `HeaderMark` child either a marker style (cursor on
the heading's line) or a hidden replacement extended over one following
space (cursor elsewhere). The cursor test is
`selection.head >= line.from && selection.head <= line.to`. -/
def getHeaderAtxDecorations (doc : Doc) (name : String) (nodeFrom : Nat)
    (marks : List (Nat × Nat)) (selHead : Nat) : List Deco :=
  match levelOfName name with
  | none => []
  | some level =>
    let n := lineAtNum doc nodeFrom
    let lf := lineFrom doc n
    let lt := lf + (lineText doc n).length
    let isCursorInside : Bool := decide (lf ≤ selHead ∧ selHead ≤ lt)
    ⟨"cm-header-" ++ toString level, lf, lf⟩ ::
    marks.map (fun m =>
      if isCursorInside then ⟨"cm-header-mark", m.1, m.2⟩
      else ⟨"cm-hidden-header", m.1,
        if docCharAt doc m.2 = some ' ' then m.2 + 1 else m.2⟩)

/-- The `StrongEmphasis` branch of `getInlineStyleDecorations`: the bold
mark (active when `selection.head` lies in `[node.from, node.to]`), and
the `EmphasisMark` children hidden exactly when the cursor is outside. -/
def getStrongEmphasisDecorations (nodeFrom nodeTo : Nat)
    (marks : List (Nat × Nat)) (selHead : Nat) : List Deco :=
  let isCursorInside : Bool := decide (nodeFrom ≤ selHead ∧ selHead ≤ nodeTo)
  ⟨if isCursorInside then "cm-bold cm-semantic-active" else "cm-bold",
    nodeFrom, nodeTo⟩ ::
  (if isCursorInside then []
   else marks.map (fun m => ⟨"cm-hidden-symbol", m.1, m.2⟩))

/-- The `HTMLTag` underline branch of `getInlineStyleDecorations`: pair a
`<u>` with the nearest `</u>` within 1000 characters forward (resp. a
`</u>` with the farthest `<u>` within 1000 characters backward); a matched
pair gets an underline mark over the content and, when the cursor is
outside the whole span, hidden-symbol decorations over both tags; an
unmatched tag is hidden when the cursor is outside the tag node. -/
def underlineDecos (doc : List Char) (nFrom nTo selHead : Nat) : List Deco :=
  if jsStartsWith (toLowerL (sliceDoc doc nFrom nTo)) "<u>".toList then
    match findSubIdx "</u>".toList
        (toLowerL (sliceDoc doc nTo (min doc.length (nTo + 1000)))) with
    | some closeIndex =>
      if nFrom ≤ selHead ∧ selHead ≤ nTo + closeIndex + 4 then
        [⟨"cm-underline cm-semantic-active", nTo, nTo + closeIndex⟩]
      else
        [⟨"cm-underline", nTo, nTo + closeIndex⟩,
         ⟨"cm-hidden-symbol", nFrom, nTo⟩,
         ⟨"cm-hidden-symbol", nTo + closeIndex, nTo + closeIndex + 4⟩]
    | none =>
      if nFrom ≤ selHead ∧ selHead ≤ nTo then []
      else [⟨"cm-hidden-symbol", nFrom, nTo⟩]
  else if toLowerL (sliceDoc doc nFrom nTo) = "</u>".toList then
    match findSubLastIdx "<u>".toList
        (toLowerL (sliceDoc doc (nFrom - 1000) nFrom)) with
    | some openIndex =>
      if (nFrom - 1000) + openIndex ≤ selHead ∧ selHead ≤ nTo then []
      else [⟨"cm-hidden-symbol", nFrom, nTo⟩]
    | none =>
      if nFrom ≤ selHead ∧ selHead ≤ nTo then []
      else [⟨"cm-hidden-symbol", nFrom, nTo⟩]
  else []

end LocalMD

namespace LocalMD

lemma splitCh_ne_nil (sep : Char) (l : List Char) : splitCh sep l ≠ [] := by
  cases l with
  | nil => simp [splitCh]
  | cons c rest =>
    by_cases hc : c = sep <;> simp [splitCh, hc]

lemma splitCh_cons_sep (sep : Char) (l : List Char) :
    splitCh sep (sep :: l) = [] :: splitCh sep l := by
  simp [splitCh]

lemma splitCh_cons_ne (sep c : Char) (l : List Char) (hc : c ≠ sep) :
    splitCh sep (c :: l) =
      (c :: (splitCh sep l).headI) :: (splitCh sep l).tail := by
  simp [splitCh, hc]

lemma splitCh_nosep (sep : Char) (l : List Char) (h : sep ∉ l) :
    splitCh sep l = [l] := by
  induction l with
  | nil => rfl
  | cons c rest ih =>
    have hc : c ≠ sep := fun hh => h (hh ▸ List.mem_cons_self c rest)
    have hr : sep ∉ rest := fun hh => h (List.mem_cons_of_mem c hh)
    rw [splitCh_cons_ne sep c rest hc, ih hr]
    rfl

lemma splitCh_append_sep (sep : Char) (a b : List Char) (h : sep ∉ a) :
    splitCh sep (a ++ sep :: b) = a :: splitCh sep b := by
  induction a with
  | nil => simpa using splitCh_cons_sep sep b
  | cons c rest ih =>
    have hc : c ≠ sep := fun hh => h (hh ▸ List.mem_cons_self c rest)
    have hr : sep ∉ rest := fun hh => h (List.mem_cons_of_mem c hh)
    rw [List.cons_append, splitCh_cons_ne sep c _ hc, ih hr]
    rfl

lemma splitCh_join (sep : Char) (ls : List (List Char)) (hne : ls ≠ [])
    (h : ∀ x ∈ ls, sep ∉ x) :
    splitCh sep (joinSep [sep] ls) = ls := by
  induction ls with
  | nil => exact absurd rfl hne
  | cons x xs ih =>
    cases xs with
    | nil =>
      simp only [joinSep]
      exact splitCh_nosep sep x (h x (List.mem_cons_self x []))
    | cons y t =>
      have hj : joinSep [sep] (x :: y :: t) = x ++ sep :: joinSep [sep] (y :: t) := by
        simp [joinSep]
      rw [hj, splitCh_append_sep sep _ _ (h x (List.mem_cons_self x _)),
        ih (by simp) (fun z hz => h z (List.mem_cons_of_mem x hz))]

lemma splitCh_join_trailing (sep : Char) (ls : List (List Char)) (hne : ls ≠ [])
    (h : ∀ x ∈ ls, sep ∉ x) :
    splitCh sep (joinSep [sep] ls ++ [sep]) = ls ++ [[]] := by
  induction ls with
  | nil => exact absurd rfl hne
  | cons x xs ih =>
    cases xs with
    | nil =>
      simp only [joinSep]
      rw [show x ++ [sep] = x ++ sep :: [] by rfl,
        splitCh_append_sep sep x [] (h x (List.mem_cons_self x []))]
      rfl
    | cons y t =>
      have hj : joinSep [sep] (x :: y :: t) ++ [sep] =
          x ++ sep :: (joinSep [sep] (y :: t) ++ [sep]) := by
        simp [joinSep]
      rw [hj, splitCh_append_sep sep _ _ (h x (List.mem_cons_self x _)),
        ih (by simp) (fun z hz => h z (List.mem_cons_of_mem x hz))]
      rfl

lemma splitCh_sep_not_mem (sep : Char) (l : List Char) :
    ∀ seg ∈ splitCh sep l, sep ∉ seg := by
  induction l with
  | nil =>
    intro seg hseg
    simp [splitCh] at hseg
    simp [hseg]
  | cons c rest ih =>
    intro seg hseg
    by_cases hc : c = sep
    · subst hc
      rw [splitCh_cons_sep] at hseg
      rcases List.mem_cons.mp hseg with h | h
      · simp [h]
      · exact ih seg h
    · rw [splitCh_cons_ne sep c rest hc] at hseg
      cases hh : splitCh sep rest with
      | nil => exact absurd hh (splitCh_ne_nil sep rest)
      | cons a t =>
        rw [hh] at hseg
        simp only [List.headI, List.tail] at hseg
        rcases List.mem_cons.mp hseg with h | h
        · subst h
          intro hmem
          rcases List.mem_cons.mp hmem with h2 | h2
          · exact hc h2.symm
          · exact ih a (by rw [hh]; exact List.mem_cons_self a t) h2
        · exact ih seg (by rw [hh]; exact List.mem_cons_of_mem a h)

lemma splitCh_mem_subset (sep : Char) (l : List Char) :
    ∀ seg ∈ splitCh sep l, ∀ c ∈ seg, c ∈ l := by
  induction l with
  | nil =>
    intro seg hseg
    simp [splitCh] at hseg
    simp [hseg]
  | cons a rest ih =>
    intro seg hseg c hc
    by_cases ha : a = sep
    · subst ha
      rw [splitCh_cons_sep] at hseg
      rcases List.mem_cons.mp hseg with h | h
      · simp [h] at hc
      · exact List.mem_cons_of_mem a (ih seg h c hc)
    · rw [splitCh_cons_ne sep a rest ha] at hseg
      cases hh : splitCh sep rest with
      | nil => exact absurd hh (splitCh_ne_nil sep rest)
      | cons x t =>
        rw [hh] at hseg
        simp only [List.headI, List.tail] at hseg
        rcases List.mem_cons.mp hseg with h | h
        · subst h
          rcases List.mem_cons.mp hc with h2 | h2
          · simp [h2]
          · exact List.mem_cons_of_mem a
              (ih x (by rw [hh]; exact List.mem_cons_self x t) c h2)
        · exact List.mem_cons_of_mem a
            (ih seg (by rw [hh]; exact List.mem_cons_of_mem x h) c hc)

lemma mem_joinSep (sep : List Char) (ls : List (List Char)) (c : Char)
    (h : c ∈ joinSep sep ls) : c ∈ sep ∨ ∃ x ∈ ls, c ∈ x := by
  induction ls with
  | nil => simp [joinSep] at h
  | cons x xs ih =>
    cases xs with
    | nil =>
      right
      exact ⟨x, List.mem_cons_self x [], by simpa [joinSep] using h⟩
    | cons y t =>
      simp only [joinSep, List.append_assoc, List.mem_append] at h
      rcases h with h | h | h
      · exact Or.inr ⟨x, List.mem_cons_self x _, h⟩
      · exact Or.inl h
      · rcases ih (by simpa [joinSep] using h) with h2 | ⟨z, hz, hcz⟩
        · exact Or.inl h2
        · exact Or.inr ⟨z, List.mem_cons_of_mem x hz, hcz⟩

lemma trimL_cons_ws (a : Char) (l : List Char) (h : isWs a = true) :
    trimL (a :: l) = trimL l := by
  simp [trimL, List.dropWhile_cons, h]

lemma trimL_cons_not_ws (a : Char) (l : List Char) (h : isWs a = false) :
    trimL (a :: l) = a :: l := by
  simp [trimL, List.dropWhile_cons, h]

lemma trimL_idem (l : List Char) : trimL (trimL l) = trimL l := by
  induction l with
  | nil => rfl
  | cons a t ih =>
    by_cases h : isWs a = true
    · rw [trimL_cons_ws a t h, ih]
    · have h2 : isWs a = false := by simpa using h
      rw [trimL_cons_not_ws a t h2, trimL_cons_not_ws a t h2]

lemma trimL_head_not_ws (l d : _) (t : List Char) (h : trimL l = d :: t) :
    isWs d = false := by
  induction l with
  | nil => simp [trimL] at h
  | cons a r ih =>
    by_cases ha : isWs a = true
    · rw [trimL_cons_ws a r ha] at h
      exact ih h
    · have h2 : isWs a = false := by simpa using ha
      rw [trimL_cons_not_ws a r h2] at h
      cases h
      exact h2

lemma trimL_eq_self_of_head (l : List Char)
    (h : ∀ d ∈ l.head?, isWs d = false) : trimL l = l := by
  cases l with
  | nil => rfl
  | cons a t =>
    exact trimL_cons_not_ws a t (h a (by simp))

lemma trimR_concat_ws (x : List Char) (w : Char) (h : isWs w = true) :
    trimR (x ++ [w]) = trimR x := by
  simp only [trimR, List.reverse_append, List.reverse_cons, List.reverse_nil,
    List.nil_append, List.cons_append]
  rw [List.dropWhile_cons]
  simp [h]

lemma trimR_sub (l : List Char) : ∃ t, trimR l ++ t = l := by
  obtain ⟨t, ht⟩ := List.dropWhile_suffix (l := l.reverse) isWs
  refine ⟨t.reverse, ?_⟩
  have := congrArg List.reverse ht
  simpa [trimR] using this

lemma trimR_idem (l : List Char) : trimR (trimR l) = trimR l := by
  simp only [trimR, List.reverse_reverse]
  rw [show List.dropWhile isWs (List.dropWhile isWs l.reverse) =
    List.dropWhile isWs l.reverse from trimL_idem l.reverse]

lemma trim_parts (l : List Char) (h : trim l = l) :
    trimL l = l ∧ trimR l = l := by
  have h1 : List.Sublist (trimL l) l :=
    (List.dropWhile_suffix isWs).sublist
  obtain ⟨t, ht⟩ := trimR_sub (trimL l)
  have h2 : List.Sublist (trimR (trimL l)) (trimR (trimL l) ++ t) :=
    List.sublist_append_left _ t
  rw [ht] at h2
  have hlen1 : l.length ≤ (trimL l).length := by
    have := congrArg List.length h
    unfold trim at this
    have h2l := h2.length_le
    omega
  have hL : trimL l = l := h1.eq_of_length (le_antisymm h1.length_le hlen1)
  refine ⟨hL, ?_⟩
  unfold trim at h
  rw [hL] at h
  exact h

lemma trim_idem (l : List Char) : trim (trim l) = trim l := by
  unfold trim
  have h1 : trimL (trimR (trimL l)) = trimR (trimL l) := by
    obtain ⟨t, ht⟩ := trimR_sub (trimL l)
    cases hw : trimR (trimL l) with
    | nil => rfl
    | cons d w =>
      apply trimL_cons_not_ws
      rw [hw] at ht
      have hdt : trimL l = d :: (w ++ t) := by rw [← ht]; simp
      exact trimL_head_not_ws l d (w ++ t) hdt
  rw [h1, trimR_idem]

/-- `trim` only removes characters: result is a sublist of the input. -/
lemma trim_sublist (l : List Char) : List.Sublist (trim l) l := by
  unfold trim
  obtain ⟨t, ht⟩ := trimR_sub (trimL l)
  have h2 : List.Sublist (trimR (trimL l)) (trimR (trimL l) ++ t) :=
    List.sublist_append_left _ t
  rw [ht] at h2
  exact h2.trans (List.dropWhile_suffix isWs).sublist

lemma trim_ne_nil_of_head (a : Char) (t : List Char) (h : isWs a = false) :
    trim (a :: t) ≠ [] := by
  unfold trim
  rw [trimL_cons_not_ws a t h]
  intro hfalse
  have : (a :: t).reverse.dropWhile isWs = [] := by
    have := congrArg List.reverse hfalse
    simpa [trimR] using this
  rw [List.dropWhile_eq_nil_iff] at this
  have := this a (by simp)
  rw [h] at this
  exact Bool.noConfusion this

lemma trim_padCell (c : List Char) (h : trim c = c) : trim (padCell c) = c := by
  obtain ⟨hL, hR⟩ := trim_parts c h
  unfold padCell trim
  rw [trimL_cons_ws ' ' (c ++ [' ']) (by decide)]
  cases c with
  | nil => decide
  | cons d c2 =>
    have hd : isWs d = false := trimL_head_not_ws (d :: c2) d c2 hL
    rw [show trimL ((d :: c2) ++ [' ']) = (d :: c2) ++ [' '] from
      trimL_cons_not_ws d (c2 ++ [' ']) hd,
      trimR_concat_ws (d :: c2) ' ' (by decide), hR]

lemma padCell_split_eq (row : List (List Char)) (hne : row ≠ []) :
    ' ' :: (joinSep [' ', '|', ' '] row ++ [' ', '|']) =
      joinSep ['|'] (row.map padCell) ++ ['|'] := by
  induction row with
  | nil => exact absurd rfl hne
  | cons c cs ih =>
    cases cs with
    | nil => simp [joinSep, padCell]
    | cons c2 t =>
      have hj : joinSep [' ', '|', ' '] (c :: c2 :: t) =
          c ++ [' ', '|', ' '] ++ joinSep [' ', '|', ' '] (c2 :: t) := by
        simp [joinSep]
      have hj2 : joinSep ['|'] ((c :: c2 :: t).map padCell) =
          padCell c ++ ['|'] ++ joinSep ['|'] ((c2 :: t).map padCell) := by
        simp [joinSep]
      rw [hj, hj2]
      have := ih (by simp)
      simp only [padCell, List.append_assoc, List.cons_append, List.nil_append] at this ⊢
      rw [← this]

lemma parseTableLine_mkTableLine (row : List (List Char)) (hne : row ≠ [])
    (hcells : ∀ c ∈ row, cleanCell c) :
    parseTableLine (mkTableLine row) = row := by
  have hnopipe : ∀ x ∈ row.map padCell, '|' ∉ x := by
    intro x hx
    obtain ⟨c, hc, rfl⟩ := List.mem_map.mp hx
    intro hmem
    have := (hcells c hc).2.1
    simp only [padCell, List.mem_cons, List.mem_append, List.mem_singleton] at hmem
    rcases hmem with h | h | h
    · exact absurd h.symm (by decide)
    · exact this h
    · exact absurd h.symm (by decide)
  have hsplit : splitCh '|' (mkTableLine row) =
      [] :: (row.map padCell ++ [[]]) := by
    unfold mkTableLine
    rw [padCell_split_eq row hne, splitCh_cons_sep,
      splitCh_join_trailing '|' (row.map padCell) (by simpa using hne) hnopipe]
  have hcellmap : row.map (fun c => trim (padCell c)) = row := by
    conv_rhs => rw [← List.map_id row]
    apply List.map_congr_left
    intro c hc
    exact trim_padCell c (hcells c hc).1
  have hmap : (([] :: (row.map padCell ++ [[]])).map trim) =
      [] :: (row ++ [[]]) := by
    have h1 : trim ([] : List Char) = [] := rfl
    simp only [List.map_cons, List.map_append, List.map_map, List.map_nil, h1]
    rw [show List.map (trim ∘ padCell) row = row from hcellmap]
  unfold parseTableLine
  rw [hsplit, hmap]
  simp [List.getLast?_concat, List.dropLast_concat]

lemma mkTableLine_no_newline (row : List (List Char))
    (h : ∀ c ∈ row, '\n' ∉ c) : '\n' ∉ mkTableLine row := by
  unfold mkTableLine
  intro hmem
  simp only [List.mem_cons, List.mem_append, List.mem_singleton] at hmem
  rcases hmem with h1 | h1 | h1 | h1 | h1
  · exact absurd h1.symm (by decide)
  · exact absurd h1.symm (by decide)
  · rcases mem_joinSep _ row _ h1 with h2 | ⟨x, hx, hcx⟩
    · exact absurd h2 (by decide)
    · exact h x hx hcx
  · exact absurd h1.symm (by decide)
  · exact absurd h1.symm (by decide)

lemma mkTableLine_nonblank (row : List (List Char)) :
    trim (mkTableLine row) ≠ [] := by
  unfold mkTableLine
  exact trim_ne_nil_of_head '|' _ (by decide)

lemma generateTable_lines (g : TableGrid) (hne : g ≠ [])
    (h : ∀ row ∈ g, ∀ c ∈ row, '\n' ∉ c) :
    splitCh '\n' (generateTable g) = g.map mkTableLine := by
  unfold generateTable
  apply splitCh_join
  · simpa using hne
  · intro x hx
    obtain ⟨row, hrow, rfl⟩ := List.mem_map.mp hx
    exact mkTableLine_no_newline row (h row hrow)

/-- Round trip at the grid level: `parseTable (generateTable g) = g` for a
well-formed grid. -/
lemma grid_round_trip (g : TableGrid)
    (h : ∀ row ∈ g, row ≠ [] ∧ ∀ c ∈ row, cleanCell c) :
    parseTable (generateTable g) = g := by
  cases g with
  | nil => decide
  | cons r0 grest =>
    set g := r0 :: grest with hg
    have hlines : splitCh '\n' (generateTable g) = g.map mkTableLine :=
      generateTable_lines g (by simp [hg]) (fun row hrow c hc => ((h row hrow).2 c hc).2.2)
    unfold parseTable
    rw [hlines]
    have hfilter : (g.map mkTableLine).filter (fun line => !(trim line).isEmpty) =
        g.map mkTableLine := by
      apply List.filter_eq_self.mpr
      intro line hline
      obtain ⟨row, hrow, rfl⟩ := List.mem_map.mp hline
      simpa [List.isEmpty_iff] using mkTableLine_nonblank row
    rw [hfilter, List.map_map]
    conv_rhs => rw [← List.map_id g]
    apply List.map_congr_left
    intro row hrow
    exact parseTableLine_mkTableLine row (h row hrow).1 (h row hrow).2

lemma parseTableLine_sublist (line : List Char) :
    List.Sublist (parseTableLine line) ((splitCh '|' line).map trim) := by
  unfold parseTableLine
  set row := (splitCh '|' line).map trim with hrow
  have h2 : List.Sublist (if row.head? = some [] then row.tail else row) row := by
    by_cases hh : row.head? = some []
    · rw [if_pos hh]; exact List.tail_sublist row
    · rw [if_neg hh]
  set row2 := if row.head? = some [] then row.tail else row with hrow2
  by_cases hh : row2.getLast? = some []
  · rw [if_pos hh]; exact (List.dropLast_sublist row2).trans h2
  · rw [if_neg hh]; exact h2

/-- Every cell produced by `parseTable` is clean. -/
lemma parseTable_cells_clean (raw : List Char) :
    ∀ row ∈ parseTable raw, ∀ c ∈ row, cleanCell c := by
  intro row hrow c hc
  unfold parseTable at hrow
  obtain ⟨line, hline, rfl⟩ := List.mem_map.mp hrow
  have hlinemem : line ∈ splitCh '\n' raw := List.mem_of_mem_filter hline
  have hcmem : c ∈ (splitCh '|' line).map trim :=
    (parseTableLine_sublist line).subset hc
  obtain ⟨seg, hseg, rfl⟩ := List.mem_map.mp hcmem
  refine ⟨trim_idem seg, ?_, ?_⟩
  · intro hmem
    exact splitCh_sep_not_mem '|' line seg hseg ((trim_sublist seg).subset hmem)
  · intro hmem
    have h1 : '\n' ∈ seg := (trim_sublist seg).subset hmem
    have h2 : '\n' ∈ line := splitCh_mem_subset '|' line seg hseg '\n' h1
    exact splitCh_sep_not_mem '\n' raw line hlinemem h2

lemma updateCell_rows (g : TableGrid) (r c : Nat) (v : List Char)
    (hv : cleanCell v)
    (h : ∀ row ∈ g, row ≠ [] ∧ ∀ x ∈ row, cleanCell x) :
    ∀ row ∈ updateCell g r c v, row ≠ [] ∧ ∀ x ∈ row, cleanCell x := by
  intro row hrow
  unfold updateCell at hrow
  cases hg : g.get? r with
  | none => rw [hg] at hrow; exact h row hrow
  | some row0 =>
    rw [hg] at hrow
    rcases List.mem_or_eq_of_mem_set hrow with hmem | heq
    · exact h row hmem
    · subst heq
      have hrow0 : row0 ∈ g := List.get?_mem hg
      obtain ⟨hne0, hcl0⟩ := h row0 hrow0
      constructor
      · intro hnil
        apply hne0
        have := congrArg List.length hnil
        rw [List.length_set] at this
        exact List.eq_nil_of_length_eq_zero (by simpa using this)
      · intro x hx
        rcases List.mem_or_eq_of_mem_set hx with hmem2 | heq2
        · exact hcl0 x hmem2
        · subst heq2; exact hv



/-- C3: for every table string whose parsed rows are nonempty, parsing
into a grid and regenerating reproduces the same grid cell for cell
(`parseTable (generateTable (parseTable s)) = parseTable s`); editing one
cell of the parsed grid and regenerating yields a table whose parse is the
grid with exactly that cell changed; and for Scenario E the `save` handler
dispatches a single replace of the widget's entire original raw-text span
`[0, rawTable.length)` with a three-line table containing `"9"` in the
edited cell and unchanged content elsewhere. -/
theorem c3_table_round_trip :
    (∀ s : List Char, (∀ row ∈ parseTable s, row ≠ []) →
       parseTable (generateTable (parseTable s)) = parseTable s) ∧
    (∀ s : List Char, ∀ r c : Nat, ∀ v : List Char,
       (∀ row ∈ parseTable s, row ≠ []) → cleanCell v →
       parseTable (generateTable (updateCell (parseTable s) r c v)) =
         updateCell (parseTable s) r c v) ∧
    tableWidgetSave rawTableEx 0 (parseTable rawTableEx) 2 0 "9".toList =
      some ⟨0, rawTableEx.length, "| a | b |\n| - | - |\n| 9 | 2 |".toList⟩ := by
  refine ⟨?_, ?_, by decide⟩
  · intro s hne
    exact grid_round_trip (parseTable s)
      (fun row hrow => ⟨hne row hrow, parseTable_cells_clean s row hrow⟩)
  · intro s r c v hne hv
    exact grid_round_trip (updateCell (parseTable s) r c v)
      (updateCell_rows (parseTable s) r c v hv
        (fun row hrow => ⟨hne row hrow, parseTable_cells_clean s row hrow⟩))

theorem c3_witness :
    parseTable (generateTable (parseTable rawTableEx)) = parseTable rawTableEx ∧
    parseTable (generateTable (updateCell (parseTable rawTableEx) 2 0 "9".toList)) =
      updateCell (parseTable rawTableEx) 2 0 "9".toList :=
  ⟨c3_table_round_trip.1 rawTableEx (by decide),
   c3_table_round_trip.2.1 rawTableEx 2 0 "9".toList (by decide) (by decide)⟩

/-- C10: `parseTable` produces exactly one grid row per input line that
is non-empty after trimming, silently discarding blank lines; a table
regenerated by `generateTable` from a nonempty grid of newline-free cells
contains no blank lines; and for a raw span containing a blank line the
regenerated string has a different line structure (three input lines,
two regenerated ones). -/
theorem c10_parse_blank_lines :
    (∀ raw : List Char, (parseTable raw).length =
       ((splitCh '\n' raw).filter (fun line => !(trim line).isEmpty)).length) ∧
    (∀ g : TableGrid, g ≠ [] → (∀ row ∈ g, ∀ c ∈ row, '\n' ∉ c) →
       ∀ line ∈ splitCh '\n' (generateTable g), trim line ≠ []) ∧
    (parseTable rawTableBlank = [["a".toList], ["1".toList]] ∧
     generateTable (parseTable rawTableBlank) = "| a |\n| 1 |".toList ∧
     (splitCh '\n' rawTableBlank).length = 3 ∧
     (splitCh '\n' (generateTable (parseTable rawTableBlank))).length = 2) := by
  refine ⟨?_, ?_, by decide, by decide, by decide, by decide⟩
  · intro raw
    unfold parseTable
    rw [List.length_map]
  · intro g hne hnl line hline
    rw [generateTable_lines g hne hnl] at hline
    obtain ⟨row, hrow, rfl⟩ := List.mem_map.mp hline
    exact mkTableLine_nonblank row

theorem c10_witness :
    ∀ line ∈ splitCh '\n' (generateTable [["a".toList], ["1".toList]]),
      trim line ≠ [] :=
  c10_parse_blank_lines.2.1 [["a".toList], ["1".toList]] (by decide) (by decide)

lemma lineAtNumAux_cons_cons (n : Nat) (l r : List Char) (t : Doc) (pos : Nat) :
    lineAtNumAux n (l :: r :: t) pos =
      if pos ≤ l.length then n
      else lineAtNumAux (n + 1) (r :: t) (pos - (l.length + 1)) := by
  simp [lineAtNumAux]

lemma docLength_cons_cons (l r : List Char) (t : Doc) :
    docLength (l :: r :: t) = l.length + 1 + docLength (r :: t) := by
  simp [docLength]

lemma lineAtNumAux_ge (doc : Doc) : ∀ n pos, n ≤ lineAtNumAux n doc pos := by
  induction doc with
  | nil => intro n pos; simp [lineAtNumAux]
  | cons l rest ih =>
    intro n pos
    cases rest with
    | nil => simp [lineAtNumAux]
    | cons r t =>
      rw [lineAtNumAux_cons_cons]
      by_cases h : pos ≤ l.length
      · rw [if_pos h]
      · rw [if_neg h]
        exact le_trans (Nat.le_succ n) (ih (n + 1) (pos - (l.length + 1)))

lemma lineAtNumAux_le (doc : Doc) (hne : doc ≠ []) :
    ∀ n pos, lineAtNumAux n doc pos ≤ n + doc.length - 1 := by
  induction doc with
  | nil => exact absurd rfl hne
  | cons l rest ih =>
    intro n pos
    cases rest with
    | nil => simp [lineAtNumAux]
    | cons r t =>
      rw [lineAtNumAux_cons_cons]
      by_cases h : pos ≤ l.length
      · rw [if_pos h]
        simp only [List.length_cons]
        omega
      · rw [if_neg h]
        have := ih (by simp) (n + 1) (pos - (l.length + 1))
        simp only [List.length_cons] at this ⊢
        omega

lemma lineAtNum_ge_one (doc : Doc) (pos : Nat) : 1 ≤ lineAtNum doc pos :=
  lineAtNumAux_ge doc 1 pos

lemma lineAtNum_le_length (doc : Doc) (hne : doc ≠ []) (pos : Nat) :
    lineAtNum doc pos ≤ doc.length := by
  have := lineAtNumAux_le doc hne 1 pos
  unfold lineAtNum
  omega

lemma lineAtNum_zero (doc : Doc) : lineAtNum doc 0 = 1 := by
  unfold lineAtNum
  cases doc with
  | nil => rfl
  | cons l rest =>
    cases rest with
    | nil => rfl
    | cons r t => simp [lineAtNumAux]

lemma lineAtNumAux_docLength (doc : Doc) (hne : doc ≠ []) :
    ∀ n, lineAtNumAux n doc (docLength doc) = n + doc.length - 1 := by
  induction doc with
  | nil => exact absurd rfl hne
  | cons l rest ih =>
    intro n
    cases rest with
    | nil => simp [lineAtNumAux]
    | cons r t =>
      rw [docLength_cons_cons, lineAtNumAux_cons_cons, if_neg (by omega)]
      have := ih (by simp) (n + 1)
      simp only [List.length_cons] at this ⊢
      rw [show l.length + 1 + docLength (r :: t) - (l.length + 1) =
        docLength (r :: t) by omega, this]
      omega

lemma lineAtNum_docLength (doc : Doc) (hne : doc ≠ []) :
    lineAtNum doc (docLength doc) = doc.length := by
  unfold lineAtNum
  rw [lineAtNumAux_docLength doc hne 1]
  have : 1 ≤ doc.length := by
    cases doc with
    | nil => exact absurd rfl hne
    | cons l rest => simp
  omega

/-- C4: with the viewport covering the whole document, a `FencedCode`
node whose end line is a closing fence line decorates exactly the full
lines strictly between the opening fence line and the closing fence line
(the fence lines themselves receive none); when the end line is not a
closing fence line (unterminated block, the node extending to the
document end) the interior lines through the node's last line are still
decorated, and the classifier is a total function, so it cannot throw. -/
theorem c4_fenced_code (doc : Doc) (hdoc : doc ≠ []) (nodeFrom nodeTo : Nat) :
    (isFenceLine (lineText doc (lineAtNum doc nodeTo)) →
      ∀ i, i ∈ fencedCodeLines doc nodeFrom nodeTo 0 (docLength doc) ↔
        lineAtNum doc nodeFrom < i ∧ i < lineAtNum doc nodeTo) ∧
    (¬ isFenceLine (lineText doc (lineAtNum doc nodeTo)) →
      ∀ i, i ∈ fencedCodeLines doc nodeFrom nodeTo 0 (docLength doc) ↔
        lineAtNum doc nodeFrom < i ∧ i ≤ lineAtNum doc nodeTo) := by
  have hvs : lineAtNum doc 0 = 1 := lineAtNum_zero doc
  have hve : lineAtNum doc (docLength doc) = doc.length := lineAtNum_docLength doc hdoc
  have hol : 1 ≤ lineAtNum doc nodeFrom := lineAtNum_ge_one doc nodeFrom
  have hel : lineAtNum doc nodeTo ≤ doc.length := lineAtNum_le_length doc hdoc nodeTo
  have he1 : 1 ≤ lineAtNum doc nodeTo := lineAtNum_ge_one doc nodeTo
  constructor
  · intro hfence i
    simp only [fencedCodeLines]
    rw [if_pos hfence, hvs, hve]
    rw [List.mem_filter, List.mem_range'_1, decide_eq_true_eq]
    omega
  · intro hfence i
    simp only [fencedCodeLines]
    rw [if_neg hfence, hvs, hve]
    rw [List.mem_filter, List.mem_range'_1, decide_eq_true_eq]
    omega

theorem c4_witness :
    (∀ i, i ∈ fencedCodeLines docFence 0 12 0 (docLength docFence) ↔ 1 < i ∧ i < 3) ∧
    fencedCodeLines docFence 0 12 0 (docLength docFence) = [2] :=
  ⟨(c4_fenced_code docFence (by decide) 0 12).1 (by decide), by decide⟩

lemma fmScanAux_eq_some (doc : Doc) :
    ∀ fuel i e, fmScanAux doc i fuel = some e ↔
      (i ≤ e ∧ e < i + fuel ∧ trim (lineText doc e) = "---".toList ∧
        ∀ j, i ≤ j → j < e → trim (lineText doc j) ≠ "---".toList) := by
  intro fuel
  induction fuel with
  | zero =>
    intro i e
    simp only [fmScanAux]
    constructor
    · intro h; exact absurd h (by simp)
    · intro ⟨h1, h2, _, _⟩; omega
  | succ fuel ih =>
    intro i e
    simp only [fmScanAux]
    by_cases h : trim (lineText doc i) = "---".toList
    · rw [if_pos h]
      constructor
      · intro he
        cases he
        exact ⟨le_refl i, by omega, h, fun j hj1 hj2 => absurd (le_antisymm hj1 (by omega)) (by omega)⟩
      · intro ⟨h1, _, h3, h4⟩
        by_cases hie : i = e
        · rw [hie]
        · exact absurd h (h4 i (le_refl i) (by omega))
    · rw [if_neg h]
      rw [ih (i + 1) e]
      constructor
      · intro ⟨h1, h2, h3, h4⟩
        refine ⟨by omega, by omega, h3, ?_⟩
        intro j hj1 hj2
        by_cases hji : j = i
        · rw [hji]; exact h
        · exact h4 j (by omega) hj2
      · intro ⟨h1, h2, h3, h4⟩
        have hie : i ≠ e := fun hh => h (hh ▸ h3)
        exact ⟨by omega, by omega, h3, fun j hj1 hj2 => h4 j (by omega) hj2⟩

/-- C5 (amended): a line `i` receives the front-matter code-block style
iff the document's first line trims to `---` (whitespace around the
delimiter is accepted — this is where the claim's "exactly ---" fails)
and some line `e ≤ min(doc.lines, 100)` is the first line from line 2 on
trimming to `---`, with `2 ≤ i < e`; so exactly the lines strictly
between the delimiters are styled and nothing is styled when no closing
delimiter occurs within the 100-line cap. Concretely,
`"---\ntitle: X\n---\nBody"` styles line 2 only. -/
theorem c5_front_matter :
    (∀ (doc : Doc) (i : Nat),
      i ∈ frontMatterLines doc ↔
        (0 < doc.length ∧ trim (lineText doc 1) = "---".toList ∧
          ∃ e, 2 ≤ e ∧ e ≤ min doc.length 100 ∧
            trim (lineText doc e) = "---".toList ∧
            (∀ j, 2 ≤ j → j < e → trim (lineText doc j) ≠ "---".toList) ∧
            2 ≤ i ∧ i < e)) ∧
    frontMatterLines ["---".toList, "title: X".toList, "---".toList,
      "Body".toList] = [2] := by
  refine ⟨?_, by decide⟩
  intro doc i
  unfold frontMatterLines
  by_cases hh : 0 < doc.length ∧ trim (lineText doc 1) = "---".toList
  · rw [if_pos hh]
    cases hscan : fmScanAux doc 2 (min doc.length 100 - 1) with
    | some e =>
      rw [fmScanAux_eq_some doc _ 2 e] at hscan
      obtain ⟨h1, h2, h3, h4⟩ := hscan
      simp only [List.mem_range'_1]
      constructor
      · intro ⟨hi1, hi2⟩
        exact ⟨hh.1, hh.2, e, h1, by omega, h3, h4, hi1, by omega⟩
      · intro ⟨_, _, e2, he1, he2, he3, he4, hi1, hi2⟩
        have : e = e2 := by
          by_cases hlt : e < e2
          · exact absurd h3 (he4 e h1 hlt)
          · by_cases hgt : e2 < e
            · exact absurd he3 (h4 e2 he1 hgt)
            · omega
        omega
    | none =>
      simp only [List.not_mem_nil, false_iff]
      intro ⟨_, _, e, he1, he2, he3, he4, _, _⟩
      have : fmScanAux doc 2 (min doc.length 100 - 1) = some e := by
        rw [fmScanAux_eq_some]
        exact ⟨he1, by omega, he3, fun j hj1 hj2 => he4 j hj1 hj2⟩
      rw [this] at hscan
      exact Option.noConfusion hscan
  · rw [if_neg hh]
    simp only [List.not_mem_nil, false_iff]
    intro ⟨h1, h2, _⟩
    exact hh ⟨h1, h2⟩

/-- C5 counterexample. -/
theorem c5_counterexample :
    frontMatterLines [" ---".toList, "a".toList, "---".toList] = [2] ∧
    " ---".toList ≠ "---".toList := by decide

/-- C9 counterexample: with the viewport covering only the last line
(offsets 12–13), `getDecorations` still emits the front-matter line
decoration at offset 4, outside every visible range. -/
theorem c9_counterexample :
    getDecorations docFM [] [(12, 13)] = [4] ∧ ¬ (12 ≤ 4 ∧ 4 ≤ 13) := by decide

/-- C9 (amended): the FencedCode and Blockquote classifiers clamp their
line decorations to
`max(construct_start, viewport_start)‥min(construct_end, viewport_end)`:
every fenced-code line decoration lies within the visible lines, and the
blockquote decorations are exactly the clamped range, so a construct
starting above the viewport is still partially decorated. The
front-matter branch, by contrast, ignores the viewport (see the
counterexample). -/
theorem c9_clamping :
    (∀ (doc : Doc) (nf nt vf vt i : Nat),
      i ∈ fencedCodeLines doc nf nt vf vt →
        lineAtNum doc vf ≤ i ∧ i ≤ lineAtNum doc vt) ∧
    (∀ (doc : Doc) (nf nt vf vt i : Nat),
      i ∈ blockquoteLines doc nf nt vf vt ↔
        (max (lineAtNum doc nf) (lineAtNum doc vf) ≤ i ∧
          i ≤ min (lineAtNum doc nt) (lineAtNum doc vt))) := by
  constructor
  · intro doc nf nt vf vt i hi
    simp only [fencedCodeLines] at hi
    rw [List.mem_filter, List.mem_range'_1] at hi
    rcases hi with ⟨⟨h1, h2⟩, _⟩
    constructor
    · calc lineAtNum doc vf ≤ max (lineAtNum doc nf + 1) (lineAtNum doc vf) :=
            le_max_right _ _
        _ ≤ i := h1
    · omega
  · intro doc nf nt vf vt i
    simp only [blockquoteLines]
    rw [List.mem_range'_1]
    omega

theorem c9_clamping_witness :
    lineAtNum docFence 0 ≤ 2 ∧ 2 ≤ lineAtNum docFence (docLength docFence) :=
  c9_clamping.1 docFence 0 12 0 (docLength docFence) 2 (by decide)

lemma countLeadingHashes_cons (c : Char) (l : List Char) :
    countLeadingHashes (c :: l) = if c = '#' then countLeadingHashes l + 1 else 0 :=
  rfl

lemma countLeadingHashes_replicate (k : Nat) (rest : List Char)
    (h : rest.head? ≠ some '#') :
    countLeadingHashes (List.replicate k '#' ++ rest) = k := by
  induction k with
  | zero =>
    simp only [List.replicate, List.nil_append]
    cases rest with
    | nil => rfl
    | cons c t =>
      simp only [List.head?_cons, ne_eq, Option.some_inj] at h
      rw [countLeadingHashes_cons, if_neg h]
  | succ k ih =>
    rw [List.replicate_succ, List.cons_append, countLeadingHashes_cons,
      if_pos rfl, ih]

lemma levelOfName_atx (k : Nat) (h1 : 1 ≤ k) (h6 : k ≤ 6) :
    levelOfName ("ATXHeading" ++ toString k) = some k := by
  interval_cases k <;> decide

/-- C7: for a heading line with `k` leading `#` characters (followed by a
space or end of line), a heading line decoration of level `k` is emitted
iff `1 ≤ k ≤ 6`; `k = 0` or `k ≥ 7` emits none — the external parser
produces no `ATXHeading` node for 7 or more `#`, and the classifier's own
guard rejects any level outside `1‥6`. -/
theorem c7_heading_level_bound (k : Nat) (rest : List Char)
    (hrest : rest = [] ∨ rest.head? = some ' ') :
    (1 ≤ k ∧ k ≤ 6 →
      headingLevelEmitted (List.replicate k '#' ++ rest) = some k) ∧
    (k = 0 ∨ 7 ≤ k →
      headingLevelEmitted (List.replicate k '#' ++ rest) = none) := by
  have hhead : rest.head? ≠ some '#' := by
    rcases hrest with h | h <;> simp [h]
  have hcount : countLeadingHashes (List.replicate k '#' ++ rest) = k :=
    countLeadingHashes_replicate k rest hhead
  have hget : (List.replicate k '#' ++ rest).get? k = rest.get? 0 := by
    rw [List.get?_append_right (by simp)]
    simp
  have hget0 : rest.get? 0 = rest.head? := by
    cases rest <;> rfl
  constructor
  · intro ⟨h1, h6⟩
    unfold headingLevelEmitted atxNodeName
    simp only [hcount]
    rw [if_pos]
    · show levelOfName ("ATXHeading" ++ toString k) = some k
      exact levelOfName_atx k h1 h6
    · refine ⟨h1, h6, ?_⟩
      rw [hget, hget0]
      rcases hrest with h | h
      · left; simp [h]
      · right; exact h
  · intro hk
    unfold headingLevelEmitted atxNodeName
    simp only [hcount]
    rw [if_neg (by omega)]
    rfl

theorem c7_witness :
    headingLevelEmitted ("### Title".toList) = some 3 ∧
    headingLevelEmitted ("####### Title".toList) = none := by
  constructor
  · have h3 := (c7_heading_level_bound 3 " Title".toList (Or.inr rfl)).1 ⟨by omega, by omega⟩
    rw [show "### Title".toList = List.replicate 3 '#' ++ " Title".toList by decide]
    exact h3
  · have h7 := (c7_heading_level_bound 7 " Title".toList (Or.inr rfl)).2 (Or.inr (by omega))
    rw [show "####### Title".toList = List.replicate 7 '#' ++ " Title".toList by decide]
    exact h7

/-- C6 counterexample: for `"# Title"` with the caret at offset 0 the
`#` mark is shown with marker styling, not hidden. -/
theorem c6_counterexample :
    getHeaderAtxDecorations ["# Title".toList] "ATXHeading1" 0 [(0, 1)] 0 =
      [⟨"cm-header-1", 0, 0⟩, ⟨"cm-header-mark", 0, 1⟩] ∧
    (∀ d ∈ getHeaderAtxDecorations ["# Title".toList] "ATXHeading1" 0 [(0, 1)] 0,
      d.cls ≠ "cm-hidden-header") := by decide

/-- C6 (amended): symbol visibility is governed by the head of the main
selection only. For `StrongEmphasis`, when the head lies in
`[node.from, node.to]` the span gets the active style and no delimiter is
hidden; otherwise the plain style is applied and every `EmphasisMark`
child is hidden. For ATX headings the test uses the heading's whole line:
head on the line gives marker styling for the `#` marks (including at
offset 0, where the claim expected them hidden), head elsewhere hides
each mark together with one following space. -/
theorem c6_cursor_proximity :
    (∀ nf nt marks h, (nf ≤ h ∧ h ≤ nt) →
       getStrongEmphasisDecorations nf nt marks h =
         [⟨"cm-bold cm-semantic-active", nf, nt⟩]) ∧
    (∀ nf nt marks h, ¬(nf ≤ h ∧ h ≤ nt) →
       getStrongEmphasisDecorations nf nt marks h =
         ⟨"cm-bold", nf, nt⟩ ::
           marks.map (fun m => ⟨"cm-hidden-symbol", m.1, m.2⟩)) ∧
    (∀ (doc : Doc) (name : String) (nf : Nat) (marks : List (Nat × Nat))
        (h level : Nat), levelOfName name = some level →
       ((lineFrom doc (lineAtNum doc nf) ≤ h ∧
         h ≤ lineFrom doc (lineAtNum doc nf) +
           (lineText doc (lineAtNum doc nf)).length) →
          getHeaderAtxDecorations doc name nf marks h =
            ⟨"cm-header-" ++ toString level, lineFrom doc (lineAtNum doc nf),
              lineFrom doc (lineAtNum doc nf)⟩ ::
              marks.map (fun m => ⟨"cm-header-mark", m.1, m.2⟩)) ∧
       (¬(lineFrom doc (lineAtNum doc nf) ≤ h ∧
          h ≤ lineFrom doc (lineAtNum doc nf) +
            (lineText doc (lineAtNum doc nf)).length) →
          getHeaderAtxDecorations doc name nf marks h =
            ⟨"cm-header-" ++ toString level, lineFrom doc (lineAtNum doc nf),
              lineFrom doc (lineAtNum doc nf)⟩ ::
              marks.map (fun m => ⟨"cm-hidden-header", m.1,
                if docCharAt doc m.2 = some ' ' then m.2 + 1 else m.2⟩))) := by
  refine ⟨?_, ?_, ?_⟩
  · intro nf nt marks h hin
    simp [getStrongEmphasisDecorations, hin]
  · intro nf nt marks h hout
    simp [getStrongEmphasisDecorations, hout]
  · intro doc name nf marks h level hlevel
    constructor
    · intro hin
      simp only [getHeaderAtxDecorations, hlevel]
      simp [hin.1, hin.2]
    · intro hout
      simp only [getHeaderAtxDecorations, hlevel]
      rw [show decide (lineFrom doc (lineAtNum doc nf) ≤ h ∧
        h ≤ lineFrom doc (lineAtNum doc nf) +
          (lineText doc (lineAtNum doc nf)).length) = false by
        simpa using hout]
      simp

/-- C6 witness: caret at offset 2 of `"# Title"` (inside the line):
marks get marker styling. -/
theorem c6_witness :
    getHeaderAtxDecorations ["# Title".toList] "ATXHeading1" 0 [(0, 1)] 2 =
      [⟨"cm-header-1", 0, 0⟩, ⟨"cm-header-mark", 0, 1⟩] := by
  have := (c6_cursor_proximity.2.2 ["# Title".toList] "ATXHeading1" 0 [(0, 1)]
    2 1 (by decide)).1 (by decide)
  simpa using this

/-- C8 counterexample: the unmatched `<u>` of `"<u>abc"` is hidden (a
hidden-symbol decoration is emitted) when the caret is outside it. -/
theorem c8_counterexample :
    underlineDecos "<u>abc".toList 0 3 5 = [⟨"cm-hidden-symbol", 0, 3⟩] ∧
    underlineDecos "<u>abc".toList 0 3 5 ≠ [] := by decide

/-- C8 (amended): for a `<u>` node with no `</u>` within the bounded
1000-character forward scan, and for a `</u>` node with no `<u>` within
the bounded backward scan, no underline decoration is emitted; the tag
text is left untouched when the caret lies inside the tag node but is
hidden (a hidden-symbol decoration over the tag) when the caret is
outside — the tag is not left as inert visible text. -/
theorem c8_unmatched_tags :
    (∀ (doc : List Char) (nFrom nTo selHead : Nat),
      jsStartsWith (toLowerL (sliceDoc doc nFrom nTo)) "<u>".toList →
      findSubIdx "</u>".toList
        (toLowerL (sliceDoc doc nTo (min doc.length (nTo + 1000)))) = none →
      underlineDecos doc nFrom nTo selHead =
        (if nFrom ≤ selHead ∧ selHead ≤ nTo then []
         else [⟨"cm-hidden-symbol", nFrom, nTo⟩])) ∧
    (∀ (doc : List Char) (nFrom nTo selHead : Nat),
      toLowerL (sliceDoc doc nFrom nTo) = "</u>".toList →
      findSubLastIdx "<u>".toList
        (toLowerL (sliceDoc doc (nFrom - 1000) nFrom)) = none →
      underlineDecos doc nFrom nTo selHead =
        (if nFrom ≤ selHead ∧ selHead ≤ nTo then []
         else [⟨"cm-hidden-symbol", nFrom, nTo⟩])) := by
  constructor
  · intro doc nFrom nTo selHead hopen hnone
    unfold underlineDecos
    rw [if_pos hopen, hnone]
  · intro doc nFrom nTo selHead hclose hnone
    unfold underlineDecos
    rw [hclose, if_neg (by decide), if_pos rfl, hnone]

theorem c8_witness :
    underlineDecos "<u>abc".toList 0 3 1 = [] ∧
    underlineDecos "abc</u>".toList 3 7 20 = [⟨"cm-hidden-symbol", 3, 7⟩] :=
  ⟨by
    have h1 := c8_unmatched_tags.1 "<u>abc".toList 0 3 1 (by decide) (by decide)
    rw [h1]
    decide,
   by
    have h2 := c8_unmatched_tags.2 "abc</u>".toList 3 7 20 (by decide) (by decide)
    rw [h2]
    decide⟩

end LocalMD

namespace LocalMD

lemma sliceDoc_full (doc : List Char) : sliceDoc doc 0 doc.length = doc := by
  simp [sliceDoc]

lemma wrap_assoc (T s e : List Char) : wrapText T s e = (s ++ T) ++ e := by
  simp [wrapText]

lemma wrap_length (T s e : List Char) :
    (wrapText T s e).length = s.length + T.length + e.length := by
  simp [wrapText]; omega

lemma sliceDoc_wrap_inner (T s e : List Char) :
    sliceDoc (wrapText T s e) s.length (s.length + T.length) = T := by
  unfold sliceDoc
  rw [wrap_assoc, show s.length + T.length = (s ++ T).length by simp,
    List.take_left, List.drop_left]

lemma sliceDoc_wrap_before (T s e : List Char) :
    sliceDoc (wrapText T s e) 0 s.length = s := by
  unfold sliceDoc
  rw [wrapText, List.drop_zero, show s ++ T ++ e = s ++ (T ++ e) by simp,
    List.take_left]

lemma sliceDoc_wrap_after (T s e : List Char) :
    sliceDoc (wrapText T s e) (s.length + T.length)
      (s.length + T.length + e.length) = e := by
  unfold sliceDoc
  rw [show s.length + T.length + e.length = (wrapText T s e).length from
      (wrap_length T s e).symm,
    List.take_length, wrap_assoc, show s.length + T.length = (s ++ T).length by simp,
    List.drop_left]

lemma wrap_startsWith (T s e : List Char) : jsStartsWith (wrapText T s e) s := by
  unfold jsStartsWith
  rw [wrapText, show s ++ T ++ e = s ++ (T ++ e) by simp, List.take_left]

lemma wrap_endsWith (T s e : List Char) : jsEndsWith (wrapText T s e) e := by
  unfold jsEndsWith
  rw [wrap_length, wrap_assoc, show s.length + T.length + e.length - e.length =
    (s ++ T).length by simp, List.drop_left]

/-- C1 (amended): for every text `T` and symbol pair `(s, e)` with `e`
nonempty, toggling a selection covering `T` wraps the document into
`s ++ T ++ e` with the selection over `T`; toggling again (selection over
the inner text) removes both symbols and restores `T`; and a selection
covering the whole wrapped text is detected as already wrapped (case 1)
and unwraps to `T`, so `unwrap(wrap(T, s, e), s, e) = T`. -/
theorem c1_toggle_round_trip (T s e : List Char) (he : e ≠ [])
    (hW : ¬(jsStartsWith T s ∧ jsEndsWith T e ∧ s.length + e.length ≤ T.length)) :
    toggleStyleRange T 0 T.length s (some e) =
      ⟨0, T.length, wrapText T s e, s.length, T.length + s.length⟩ ∧
    applyChange T (toggleStyleRange T 0 T.length s (some e)) = wrapText T s e ∧
    toggleStyleRange (wrapText T s e) s.length (s.length + T.length) s (some e) =
      ⟨0, s.length + T.length + e.length, T, 0, T.length⟩ ∧
    applyChange (wrapText T s e)
      (toggleStyleRange (wrapText T s e) s.length (s.length + T.length) s (some e)) = T ∧
    toggleStyleRange (wrapText T s e) 0 (wrapText T s e).length s (some e) =
      ⟨0, (wrapText T s e).length, T, 0, T.length⟩ ∧
    applyChange (wrapText T s e)
      (toggleStyleRange (wrapText T s e) 0 (wrapText T s e).length s (some e)) = T := by
  have hel : e.length ≠ 0 := by
    intro h; exact he (List.length_eq_zero.mp h)
  have hendSym : (if e = [] then s else e) = e := if_neg he
  have hwrap : toggleStyleRange T 0 T.length s (some e) =
      ⟨0, T.length, wrapText T s e, s.length, T.length + s.length⟩ := by
    unfold toggleStyleRange
    simp only [hendSym, sliceDoc_full]
    rw [if_neg hW, if_neg]
    · simp [wrapText, Nat.add_comm]
    · rintro ⟨-, hafter⟩
      apply he
      rw [← hafter]
      unfold sliceDoc
      simp
  have hunwrap : toggleStyleRange (wrapText T s e) s.length (s.length + T.length) s
      (some e) = ⟨0, s.length + T.length + e.length, T, 0, T.length⟩ := by
    unfold toggleStyleRange
    simp only [hendSym, sliceDoc_wrap_inner]
    rw [if_neg hW, if_pos]
    · simp
    · constructor
      · rw [show s.length - s.length = 0 by omega]
        exact sliceDoc_wrap_before T s e
      · exact sliceDoc_wrap_after T s e
  have hcase1 : toggleStyleRange (wrapText T s e) 0 (wrapText T s e).length s
      (some e) = ⟨0, (wrapText T s e).length, T, 0, T.length⟩ := by
    unfold toggleStyleRange
    simp only [hendSym, sliceDoc_full]
    rw [if_pos]
    · have hinner : (if e.length = 0 then ([] : List Char)
        else ((wrapText T s e).take ((wrapText T s e).length - e.length)).drop
          s.length) = T := by
        rw [if_neg hel, wrap_length,
          show s.length + T.length + e.length - e.length = (s ++ T).length by simp,
          wrap_assoc, List.take_left, List.drop_left]
      rw [hinner]
      simp
    · refine ⟨wrap_startsWith T s e, wrap_endsWith T s e, ?_⟩
      rw [wrap_length]; omega
  refine ⟨hwrap, ?_, hunwrap, ?_, hcase1, ?_⟩
  · rw [hwrap]; simp [applyChange]
  · rw [hunwrap]
    unfold applyChange
    simp only [List.take_zero, List.nil_append]
    rw [show s.length + T.length + e.length = (wrapText T s e).length from
      (wrap_length T s e).symm, List.drop_length, List.append_nil]
  · rw [hcase1]
    unfold applyChange
    simp [List.drop_length]

/-- C1 counterexample: with the degenerate symbol pair `("", "")` (JS
`endSymbol || symbol` keeps the end symbol empty), the wrapped document
for `T = "a"` is `"a"` itself; the toggle detects case 1 and, through
`text.slice(0, -0) = ""`, replaces it by the empty string, so
`unwrap(wrap("a", s, e), s, e) = "" ≠ "a"`. -/
theorem c1_counterexample :
    toggleStyleRange (wrapText "a".toList [] []) 0 1 [] none =
      ⟨0, 1, [], 0, 0⟩ ∧
    applyChange (wrapText "a".toList [] [])
      (toggleStyleRange (wrapText "a".toList [] []) 0 1 [] none) ≠ "a".toList := by
  decide

/-- C1 witness: Scenario D, `"hello"` toggled with `"**"` and back. -/
theorem c1_witness :
    applyChange "hello".toList
      (toggleStyleRange "hello".toList 0 ("hello".toList.length) "**".toList
        (some "**".toList)) = wrapText "hello".toList "**".toList "**".toList ∧
    applyChange (wrapText "hello".toList "**".toList "**".toList)
      (toggleStyleRange (wrapText "hello".toList "**".toList "**".toList)
        ("**".toList.length) ("**".toList.length + "hello".toList.length)
        "**".toList (some "**".toList)) = "hello".toList :=
  ⟨(c1_toggle_round_trip "hello".toList "**".toList "**".toList
      (by decide) (by decide)).2.1,
   (c1_toggle_round_trip "hello".toList "**".toList "**".toList
      (by decide) (by decide)).2.2.2.1⟩

end LocalMD

namespace LocalMD

lemma dedupGo_sublist (l : List DecoRange) :
    ∀ lf lt lv, (dedupGo lf lt lv l).Sublist l := by
  induction l with
  | nil => intro lf lt lv; simp [dedupGo]
  | cons d rest ih =>
    intro lf lt lv
    unfold dedupGo
    by_cases h : d.rFrom ≠ lf ∨ d.rTo ≠ lt ∨ some d.value ≠ lv
    · rw [if_pos h]
      exact (ih _ _ _).cons₂ d
    · rw [if_neg h]
      exact (ih _ _ _).cons d

lemma dedupGo_chain (l : List DecoRange) :
    ∀ lf lt lv, (dedupGo lf lt lv l).Chain' notAdjDup ∧
      ∀ d ∈ (dedupGo lf lt lv l).head?,
        d.rFrom ≠ lf ∨ d.rTo ≠ lt ∨ some d.value ≠ lv := by
  induction l with
  | nil => intro lf lt lv; simp [dedupGo]
  | cons d rest ih =>
    intro lf lt lv
    unfold dedupGo
    by_cases h : d.rFrom ≠ lf ∨ d.rTo ≠ lt ∨ some d.value ≠ lv
    · rw [if_pos h]
      obtain ⟨ihc, ihh⟩ := ih d.rFrom d.rTo (some d.value)
      refine ⟨List.chain'_cons'.mpr ⟨?_, ihc⟩, ?_⟩
      · intro y hy
        have := ihh y hy
        unfold notAdjDup
        simp only [Option.some_inj] at this
        tauto
      · intro x hx
        simp only [List.head?_cons, Option.mem_def, Option.some_inj] at hx
        subst hx
        exact h
    · rw [if_neg h]
      exact ih lf lt lv

lemma dedupGo_of_distinct (l : List DecoRange) :
    ∀ lv, (∀ d ∈ l, some d.value ≠ lv) →
      l.Pairwise (fun a b => a.value ≠ b.value) →
      ∀ lf lt, dedupGo lf lt lv l = l := by
  induction l with
  | nil => intro lv _ _ lf lt; simp [dedupGo]
  | cons d rest ih =>
    intro lv hlv hpw lf lt
    unfold dedupGo
    rw [if_pos]
    · rw [ih (some d.value) ?_ (List.Pairwise.of_cons hpw)]
      intro x hx
      simp only [ne_eq, Option.some_inj]
      exact fun hx2 => (List.rel_of_pairwise_cons hpw hx) hx2.symm
    · right; right
      exact hlv d (List.mem_cons_self d rest)

/-- C2 (amended): the output of `deduplicateDecorations` is sorted by
`(from, to)` ascending; no two adjacent output entries agree on
`(from, to)` and on the payload object (JS reference identity); and when
all payload objects are pairwise distinct — in particular for ranges with
the same span but different payloads — nothing is dropped, the input is
only sorted. Non-adjacent repeats and structurally-equal-but-distinct
objects are kept. -/
theorem c2_dedup (l : List DecoRange) :
    (deduplicateDecorations l).Pairwise decoLE ∧
    (deduplicateDecorations l).Chain' notAdjDup ∧
    (l.Pairwise (fun a b => a.value ≠ b.value) →
      deduplicateDecorations l = if l.length ≤ 1 then l else sortDecos l) := by
  refine ⟨?_, ?_, ?_⟩
  · unfold deduplicateDecorations
    by_cases h : l.length ≤ 1
    · rw [if_pos h]
      match l, h with
      | [], _ => simp
      | [a], _ => simp
    · rw [if_neg h]
      exact List.Pairwise.sublist (dedupGo_sublist _ _ _ _)
        (List.sorted_insertionSort decoLE l)
  · unfold deduplicateDecorations
    by_cases h : l.length ≤ 1
    · rw [if_pos h]
      match l, h with
      | [], _ => simp
      | [a], _ => simp
    · rw [if_neg h]
      exact (dedupGo_chain _ _ _ _).1
  · intro hpw
    unfold deduplicateDecorations
    by_cases h : l.length ≤ 1
    · rw [if_pos h, if_pos h]
    · rw [if_neg h, if_neg h]
      apply dedupGo_of_distinct
      · intro d _; simp
      · exact (List.perm_insertionSort decoLE l).symm.pairwise hpw
          fun hxy h2 => hxy h2.symm

/-- C2 counterexample: two decoration ranges with identical
`(from, to, kind, payload)` but distinct payload objects (as produced by
two calls of `Decoration.mark` with equal arguments) both survive
deduplication, so the output is not duplicate-free under structural
equality, and the duplicate test is object identity, not structural
equality. -/
theorem c2_counterexample :
    deduplicateDecorations
      [⟨0, 1, ⟨1, "mark", "cm-bold"⟩⟩, ⟨0, 1, ⟨2, "mark", "cm-bold"⟩⟩] =
      [⟨0, 1, ⟨1, "mark", "cm-bold"⟩⟩, ⟨0, 1, ⟨2, "mark", "cm-bold"⟩⟩] ∧
    ¬ ([(⟨0, 1, ⟨1, "mark", "cm-bold"⟩⟩ : DecoRange),
        ⟨0, 1, ⟨2, "mark", "cm-bold"⟩⟩].Pairwise
        (fun a b => ¬ structIdent a b)) := by
  constructor
  · decide
  · decide

/-- C2 witness: a two-element input with distinct payload objects is only
sorted. -/
theorem c2_witness :
    deduplicateDecorations
      [⟨5, 6, ⟨1, "mark", "cm-bold"⟩⟩, ⟨0, 2, ⟨2, "line", "cm-header-1"⟩⟩] =
      if ([(⟨5, 6, ⟨1, "mark", "cm-bold"⟩⟩ : DecoRange),
           ⟨0, 2, ⟨2, "line", "cm-header-1"⟩⟩] : List DecoRange).length ≤ 1 then
        [⟨5, 6, ⟨1, "mark", "cm-bold"⟩⟩, ⟨0, 2, ⟨2, "line", "cm-header-1"⟩⟩]
      else sortDecos
        [⟨5, 6, ⟨1, "mark", "cm-bold"⟩⟩, ⟨0, 2, ⟨2, "line", "cm-header-1"⟩⟩] :=
  (c2_dedup _).2.2 (by decide)

end LocalMD
